import Mathlib

/-!
Verification of the near/wasmer engine core against its natural-language
specification.

Each section shallowly embeds one component of the source tree:

* `lib/engine-universal/src/executable.rs` — the serialized executable
  format (magic header, rkyv payload, trailing root position) and its
  verifier.
* `lib/vm/src/sig_registry.rs` — the signature registry.
* `lib/types/src/module.rs` — conversions between function index spaces.
* `lib/types/src/partial_sum_map.rs` — the partial-sum map.
* `lib/api/src/sys/instance.rs` — the gas-metering configuration check.
* `lib/compiler-singlepass/src/machine.rs` — the machine state and
  register allocator.
* `lib/compiler-singlepass/src/compiler.rs` — the per-function fan-out
  and in-order fan-in of module compilation.
* `lib/engine/src/resolver.rs` — import resolution and type checks.

Machine integers are modelled as `Nat` with explicit bounds where overflow
matters; fallible code returns `Except` or `Option`; the Rust panic paths
that the resolver can reach are modelled by an explicit outcome
constructor.
-/

/-! ## Bytes and little-endian 64-bit encoding -/

/-- Little-endian encoding of a 64-bit value into 8 bytes, the encoding used
by the trailing root-position word of the serialized executable
(u64 to le bytes in the source). -/
def toLE64 (n : Nat) : List Nat :=
  (List.range 8).map fun i => n / 256 ^ i % 256

/-- Little-endian decoding of a byte list, the reading performed by
u64 from le bytes in verify and in deserialize. -/
def fromLE64 (bs : List Nat) : Nat :=
  bs.foldr (fun b acc => b + 256 * acc) 0

/-! ## Serialized executable format: lib/engine-universal/src/executable.rs -/

/-- The 22-byte magic header of a serialized `UniversalExecutable`:
the bytes of the literal starting with a NUL byte, then the ASCII text
wasmer-universal, then five 0xFF reserved bytes (`MAGIC_HEADER` in the
source). -/
def MAGIC_HEADER : List Nat :=
  [0, 119, 97, 115, 109, 101, 114, 45, 117, 110, 105, 118, 101, 114, 115, 97, 108,
   255, 255, 255, 255, 255]

/-- `UniversalExecutable::serialize`.  The source first pushes the magic
header into the output vector, then hands the vector to rkyv through
`WriteSerializer::with_pos(std::io::Cursor::new(&mut out), 22)`.  A fresh
`std::io::Cursor` over a vector starts at position 0 and its `Write`
implementation overwrites the existing contents from that position before
extending, so the rkyv payload bytes land at offset 0, on top of the magic
header, while the serializer itself believes the stream starts at
offset 22.  Finally the root position returned by rkyv is appended as a
little-endian u64.  The rkyv serializer is kept abstract: `payload` is
whatever byte sequence it writes and `rootPos` the position it returns
(which, counting from the pretended start 22, is below
`22 + payload.length`). -/
def UniversalExecutable.serialize (payload : List Nat) (rootPos : Nat) : List Nat :=
  (payload ++ MAGIC_HEADER.drop payload.length) ++ toLE64 rootPos

/-- `UniversalExecutableRef::verify_serialized`, translated clause by
clause: reject when the buffer does not start with the magic header;
reject when it is shorter than magic plus 8 bytes; read the trailing 8
bytes as a little-endian u64 and reject when that value is below the
buffer length; otherwise accept. -/
def UniversalExecutableRef.verify_serialized (data : List Nat) : Except String Unit :=
  if ¬ MAGIC_HEADER.isPrefixOf data then
    .error "the provided bytes are not wasmer-universal"
  else if data.length < MAGIC_HEADER.length + 8 then
    .error "the data buffer is too small to be valid"
  else if fromLE64 (data.drop (data.length - 8)) < data.length then
    .error "the buffer is malformed"
  else
    .ok ()

/-- `UniversalExecutableRef::deserialize`: run the verifier, then split off
the trailing 8 bytes and interpret them as the root position into the
remaining prefix (magic included).  The archived view is modelled as that
prefix together with the root position. -/
def UniversalExecutableRef.deserialize (data : List Nat) :
    Except String (List Nat × Nat) := do
  UniversalExecutableRef.verify_serialized data
  pure (data.take (data.length - 8), fromLE64 (data.drop (data.length - 8)))

/-- Modelled from the spec: minimal-form unsigned LEB128 decoding of a
complete byte list, as required by the layout the specification describes
for offset 22 of the serialized executable (the source under
lib/engine-universal/src/executable.rs contains no LEB128 field; this
definition exists only to state the specified layout). -/
def specLeb128Decode : List Nat → Option Nat
  | [] => none
  | b :: rest =>
    if b < 128 then
      if rest.isEmpty then some b else none
    else
      (specLeb128Decode rest).map fun v => (b - 128) + 128 * v

/-- Modelled from the spec: the buffer layout claimed by the specification
for a serialized executable — the 22-byte magic header, a LEB128-encoded
payload length, the payload itself, and a trailing little-endian u64 root
offset that lies within the payload. -/
def specSerializedLayout (buf : List Nat) : Prop :=
  ∃ lebBytes payloadLen payload rootOff,
    buf = MAGIC_HEADER ++ lebBytes ++ payload ++ toLE64 rootOff ∧
    specLeb128Decode lebBytes = some payloadLen ∧
    payload.length = payloadLen ∧
    rootOff < payloadLen

/-! ## Signature registry: lib/vm/src/sig_registry.rs -/

/-- The wasm value types of wasmer_types, as used in function signatures. -/
inductive WasmType where
  | I32 | I64 | F32 | F64 | V128 | ExternRef | FuncRef
deriving DecidableEq, Repr

/-- A function type: parameter and result type vectors
(`FunctionType` in wasmer_types). -/
structure FunctionType where
  params : List WasmType
  results : List WasmType
deriving DecidableEq, Repr

/-- The signature registry.  The source keeps a
`HashMap FunctionType to index` next to a `Vec FunctionType`; `register`
keeps the two exactly inverse to each other, so the state is faithfully
represented by the vector alone, with the hash map recovered as the first
index of a signature in the vector. -/
structure SignatureRegistry where
  index2signature : List FunctionType
deriving DecidableEq, Repr

/-- The lookup the signature2index hash map performs: the first index at
which the signature was pushed into the vector (`HashMap::entry` hit). -/
def SignatureRegistry.signature2index : List FunctionType → FunctionType → Option Nat
  | [], _ => none
  | s :: rest, sig =>
    if s = sig then some 0 else (SignatureRegistry.signature2index rest sig).map (· + 1)

/-- `SignatureRegistry::register`: return the existing index when the
signature is already present (occupied entry), otherwise mint the next
dense index and push the signature (vacant entry). -/
def SignatureRegistry.register (r : SignatureRegistry) (sig : FunctionType) :
    Nat × SignatureRegistry :=
  match SignatureRegistry.signature2index r.index2signature sig with
  | some i => (i, r)
  | none => (r.index2signature.length, ⟨r.index2signature ++ [sig]⟩)

/-- `SignatureRegistry::lookup`: index into the vector of signatures. -/
def SignatureRegistry.lookup (r : SignatureRegistry) (idx : Nat) : Option FunctionType :=
  r.index2signature[idx]?

/-! ## Function index spaces: lib/types/src/module.rs -/

/-- `ModuleInfo::func_index`: convert a local function index to a function
index by adding the number of imported functions
(import_counts.functions). -/
def ModuleInfo.func_index (importedFunctions : Nat) (localFunc : Nat) : Nat :=
  importedFunctions + localFunc

/-- `ModuleInfo::local_func_index`: checked subtraction of the number of
imported functions; `None` when the index denotes an import. -/
def ModuleInfo.local_func_index (importedFunctions : Nat) (func : Nat) : Option Nat :=
  if func < importedFunctions then none else some (func - importedFunctions)

/-- `ModuleInfo::is_imported_function`: a function index denotes an import
exactly when it is below the import count. -/
def ModuleInfo.is_imported_function (importedFunctions : Nat) (func : Nat) : Bool :=
  func < importedFunctions

/-! ## Partial-sum map: lib/types/src/partial_sum_map.rs -/

/-- The error type of the partial-sum map. -/
inductive PartialSumError where
  | Overflow
deriving DecidableEq, Repr

/-- `PartialSumMap`: parallel vectors of partial-sum keys and values. -/
structure PartialSumMap (V : Type) where
  keys : List Nat
  values : List V

/-- The largest representable u32 value; the key type of the map is u32 and
`step` uses `checked_add`. -/
def u32MAX : Nat := 4294967295

/-- `PartialSumKey::step` for u32: checked addition. -/
def PartialSumMap.step (k count : Nat) : Except PartialSumError Nat :=
  if k + count ≤ u32MAX then .ok (k + count) else .error .Overflow

/-- `PartialSumKey::first_index` for u32: `count - 1`; the caller
guarantees `count` is non-zero, so the checked subtraction never fails. -/
def PartialSumMap.first_index (count : Nat) : Nat := count - 1

/-- `PartialSumMap::max_index`: the last key, if any. -/
def PartialSumMap.max_index {V : Type} (m : PartialSumMap V) : Option Nat :=
  m.keys.getLast?

/-- `PartialSumMap::push`: a no-op on `count = 0`; otherwise extend the key
vector with the stepped partial sum and the value vector with the value.
The new key is computed (and any overflow error returned) before either
vector is touched, so a failing push leaves the map unchanged.  Returned
is the `Result` together with the (possibly updated) map, mirroring
`&mut self`. -/
def PartialSumMap.push {V : Type} (m : PartialSumMap V) (count : Nat) (value : V) :
    Except PartialSumError Unit × PartialSumMap V :=
  if count ≠ 0 then
    match (match m.max_index with
           | none => Except.ok (PartialSumMap.first_index count)
           | some k => PartialSumMap.step k count) with
    | .error e => (.error e, m)
    | .ok newKey => (.ok (), ⟨m.keys ++ [newKey], m.values ++ [value]⟩)
  else
    (.ok (), m)

/-- `PartialSumMap::find`: binary search of the key vector for the index
and lookup of the value at the found or insertion position.  For the
strictly increasing key vectors the map maintains, `binary_search` yields
`Ok i` exactly at the unique position holding the probed key and
`Err i` at the insertion point otherwise; in both cases `i` equals the
number of keys smaller than the probe, which is the form used here. -/
def PartialSumMap.find {V : Type} (m : PartialSumMap V) (index : Nat) : Option V :=
  m.values[m.keys.countP (fun k => decide (k < index))]?

/-- The representation invariant of every reachable `PartialSumMap`:
strictly increasing keys and parallel vectors of equal length. -/
def PartialSumMap.Inv {V : Type} (m : PartialSumMap V) : Prop :=
  m.keys.Chain' (· < ·) ∧ m.keys.length = m.values.length

/-! ## Gas-metering configuration check: lib/api/src/sys/instance.rs -/

/-- The host-environment initialization errors reaching
`Instance::new_with_config` (the enum itself is declared outside the
sources under verification; only the constructor used there is needed). -/
inductive HostEnvInitError where
  | IncorrectGasMeteringConfig
deriving DecidableEq, Repr

/-- `InstantiationError` of lib/api/src/sys/instance.rs. -/
inductive InstantiationError where
  | Link
  | Start
  | CpuFeature (name : String)
  | HostEnvInitialization (e : HostEnvInitError)
deriving DecidableEq, Repr

/-- The largest i32 value, the cap on the per-opcode gas cost. -/
def i32MAX : Nat := 2147483647

/-- `Instance::new_with_config`, control flow around the gas check: when
the configured opcode cost exceeds i32::MAX, fail with
`IncorrectGasMeteringConfig` before anything else happens; otherwise
proceed with the remainder of instantiation, which is abstracted as
`rest` (resolution, allocation, start function — none of it runs when the
check fails). -/
def Instance.new_with_config {α : Type} (opcode_cost : Nat)
    (rest : Except InstantiationError α) : Except InstantiationError α :=
  if opcode_cost > i32MAX then
    .error (.HostEnvInitialization .IncorrectGasMeteringConfig)
  else
    rest

/-! ## Machine state and register allocator:
lib/compiler-singlepass/src/machine.rs -/

/-- The x86_64 general-purpose registers of the emitter. -/
inductive GPR where
  | RAX | RCX | RDX | RBX | RSP | RBP | RSI | RDI
  | R8 | R9 | R10 | R11 | R12 | R13 | R14 | R15
deriving DecidableEq, Repr

/-- The SIMD registers used by the singlepass compiler. -/
inductive XMM where
  | XMM0 | XMM1 | XMM2 | XMM3 | XMM4 | XMM5 | XMM6 | XMM7
deriving DecidableEq, Repr

/-- The wasmparser value types the register allocator accepts
(the V128 arm of the source is unreachable for this compiler). -/
inductive WpType where
  | I32 | I64 | F32 | F64 | FuncRef | ExternRef
deriving DecidableEq, Repr

/-- Operand locations of the x86_64 emitter, as far as the allocator
produces and consumes them. -/
inductive Location where
  | GPR (r : GPR)
  | XMM (x : XMM)
  | Memory (base : GPR) (disp : Int)
  | Imm32 (v : Nat)
  | Imm64 (v : Nat)
deriving DecidableEq, Repr

/-- The machine instructions the allocator itself emits: the coalesced
stack adjustments and the optional zeroing moves. -/
inductive Instr where
  | subRspImm (n : Nat)
  | addRspImm (n : Nat)
  | movImm32Zero (dst : Location)
deriving DecidableEq, Repr

/-- The allocator state of `Machine`: the used register sets and the
tracked stack offset (the save-area and locals offsets play no role in
acquire and release and are omitted). -/
structure Machine where
  used_gprs : Finset GPR
  used_xmms : Finset XMM
  stack_offset : Nat
deriving DecidableEq

/-- `Machine::pick_gpr`: the first register of the fixed canonical list
RSI, RDI, R8, R9, R10, R11 that is not in use. -/
def Machine.pickableGprs : List GPR := [.RSI, .RDI, .R8, .R9, .R10, .R11]

/-- `Machine::pick_gpr`. -/
def Machine.pick_gpr (m : Machine) : Option GPR :=
  Machine.pickableGprs.find? fun r => decide (r ∉ m.used_gprs)

/-- `Machine::pick_xmm`: the first register of the fixed canonical list
XMM3, XMM4, XMM5, XMM6, XMM7 that is not in use. -/
def Machine.pickableXmms : List XMM := [.XMM3, .XMM4, .XMM5, .XMM6, .XMM7]

/-- `Machine::pick_xmm`. -/
def Machine.pick_xmm (m : Machine) : Option XMM :=
  Machine.pickableXmms.find? fun x => decide (x ∉ m.used_xmms)

/-- One iteration of the loop of `Machine::acquire_locations`: pick a
register suited to the type (XMM for floats, GPR otherwise) and mark it
used, or fall back to a fresh 8-byte stack slot at the incremented stack
offset, addressed RBP-relative with a negative displacement. -/
def Machine.acquireStep (m : Machine) (ty : WpType) : Location × Machine :=
  match ty with
  | .F32 | .F64 =>
    match m.pick_xmm with
    | some x => (.XMM x, { m with used_xmms := insert x m.used_xmms })
    | none =>
      (.Memory .RBP (-((m.stack_offset + 8 : Nat) : Int)),
       { m with stack_offset := m.stack_offset + 8 })
  | _ =>
    match m.pick_gpr with
    | some r => (.GPR r, { m with used_gprs := insert r m.used_gprs })
    | none =>
      (.Memory .RBP (-((m.stack_offset + 8 : Nat) : Int)),
       { m with stack_offset := m.stack_offset + 8 })

/-- The loop of `Machine::acquire_locations` over the requested types,
returning the locations in order together with the final state. -/
def Machine.acquireList (m : Machine) : List WpType → List Location × Machine
  | [] => ([], m)
  | ty :: rest =>
    let st := m.acquireStep ty
    let lm := st.2.acquireList rest
    (st.1 :: lm.1, lm.2)

/-- `Machine::acquire_locations`: run the loop, then emit a single
`sub rsp` for the accumulated stack delta when it is non-zero, and the
zeroing moves when requested. -/
def Machine.acquire_locations (m : Machine) (tys : List WpType) (zeroed : Bool) :
    List Location × Machine × List Instr :=
  let lm := m.acquireList tys
  let delta := lm.2.stack_offset - m.stack_offset
  (lm.1, lm.2,
    (if delta = 0 then [] else [Instr.subRspImm delta]) ++
      (if zeroed then lm.1.map Instr.movImm32Zero else []))

/-- One iteration of the loop of `Machine::release_locations` (which walks
the locations in reverse): registers must currently be marked used and are
removed; an RBP-relative stack slot must have a negative displacement
equal to the tracked top of stack, which is popped, accumulating the
coalesced stack delta; other locations are ignored.  `none` models a
failed assertion. -/
def Machine.releaseOne (m : Machine) (delta : Nat) :
    Location → Option (Machine × Nat)
  | .GPR r =>
    if r ∈ m.used_gprs then
      some ({ m with used_gprs := m.used_gprs.erase r }, delta)
    else none
  | .XMM x =>
    if x ∈ m.used_xmms then
      some ({ m with used_xmms := m.used_xmms.erase x }, delta)
    else none
  | .Memory base disp =>
    if base = .RBP then
      if 0 ≤ disp then none
      else if (-disp).toNat ≠ m.stack_offset then none
      else some ({ m with stack_offset := m.stack_offset - 8 }, delta + 8)
    else some (m, delta)
  | _ => some (m, delta)

/-- The loop of `Machine::release_locations` over an already reversed
location list. -/
def Machine.releaseList (m : Machine) (delta : Nat) :
    List Location → Option (Machine × Nat)
  | [] => some (m, delta)
  | loc :: rest =>
    match m.releaseOne delta loc with
    | some md => md.1.releaseList md.2 rest
    | none => none

/-- `Machine::release_locations`: walk the locations in reverse order and
emit one coalesced `add rsp` when any stack slot was popped. -/
def Machine.release_locations (m : Machine) (locs : List Location) :
    Option (Machine × List Instr) :=
  (m.releaseList 0 locs.reverse).map fun md =>
    (md.1, if md.2 = 0 then [] else [Instr.addRspImm md.2])

/-! ## Module compilation fan-out and fan-in:
lib/compiler-singlepass/src/compiler.rs -/

/-- The compile errors surfaced by `SinglepassCompiler::compile_module`. -/
inductive CompileError where
  | UnsupportedTarget (what : String)
  | UnsupportedFeature (what : String)
  | Codegen (message : String)
deriving DecidableEq, Repr

/-- The function-compilation phase of
`SinglepassCompiler::compile_module`: map the per-function code generator
over the function bodies and collect the results in input order into the
dense function map (`collect` over `Result` of the sequential or rayon
iteration; both preserve the input order).  The per-function generator
`compileOne` (FuncGen) is a parameter: its body lives outside the sources
under verification, and determinism only needs it to be a function of its
input. -/
def SinglepassCompiler.compileFunctions {α β : Type}
    (compileOne : α → Except CompileError β) (inputs : List α) :
    Except CompileError (List β) :=
  inputs.mapM compileOne

/-! ## Import resolution: lib/engine/src/resolver.rs -/

/-- Memory types of wasmer_types: minimum and optional maximum in pages,
and the shared flag (the type itself is declared outside the sources under
verification; fields as used by the resolver). -/
structure MemoryType where
  minimum : Nat
  maximum : Option Nat
  shared : Bool
deriving DecidableEq, Repr

/-- Table types of wasmer_types: element type, minimum and optional
maximum. -/
structure TableType where
  ty : WasmType
  minimum : Nat
  maximum : Option Nat
deriving DecidableEq, Repr

/-- Global types of wasmer_types: value type and mutability. -/
structure GlobalType where
  ty : WasmType
  mutable : Bool
deriving DecidableEq, Repr

/-- Memory styles of wasmer_vm (Static with bound, or Dynamic), each with
an offset-guard size. -/
inductive MemoryStyle where
  | Dynamic (offset_guard_size : Nat)
  | Static (bound : Nat) (offset_guard_size : Nat)
deriving DecidableEq, Repr

/-- `MemoryStyle::offset_guard_size`. -/
def MemoryStyle.offset_guard_size : MemoryStyle → Nat
  | .Dynamic g => g
  | .Static _ g => g

/-- The import descriptors of a module (`VMImport`): occurrence index,
module and field names, and the expected type.  Function signatures are
the shared signature indices the engine registered. -/
inductive VMImportType where
  | Function (signature : Nat)
  | Table (ty : TableType)
  | Memory (ty : MemoryType) (style : MemoryStyle)
  | Global (ty : GlobalType)
deriving DecidableEq, Repr

/-- One declared import. -/
structure VMImport where
  import_no : Nat
  module : String
  field : String
  ty : VMImportType
deriving DecidableEq, Repr

/-- The exports a resolver can hand back, reduced to the data the type
checks consume: the signature index of a function, the type of a table or
global, the type and style of a memory. -/
inductive Export where
  | Function (signature : Nat)
  | Table (ty : TableType)
  | Memory (ty : MemoryType) (style : MemoryStyle)
  | Global (ty : GlobalType)
deriving DecidableEq, Repr

/-- A resolver: `resolve(index, module, field)`. -/
def Resolver : Type := Nat → String → String → Option Export

/-- `is_compatible_table`, translated clause by clause (the unwraps are
guarded by the is-none tests on their short-circuit paths). -/
def is_compatible_table (ex im : TableType) : Bool :=
  (ex.ty == .FuncRef || ex.ty == im.ty) &&
    decide (im.minimum ≤ ex.minimum) &&
    (im.maximum.isNone ||
      (!ex.maximum.isNone && decide (im.maximum.getD 0 ≥ ex.maximum.getD 0)))

/-- `is_compatible_memory`, translated clause by clause. -/
def is_compatible_memory (ex im : MemoryType) : Bool :=
  decide (im.minimum ≤ ex.minimum) &&
    (im.maximum.isNone ||
      (!ex.maximum.isNone && decide (im.maximum.getD 0 ≥ ex.maximum.getD 0))) &&
    (ex.shared == im.shared)

/-- How one pass of the `resolve_imports` loop can end.  The source
builds its `LinkError::Import(module, field, ImportError::...)` values
with a placeholder first argument written `None.unwrap()`, and Rust
evaluates that argument before the error is assembled, so every error
path of the loop panics instead of returning; `panicked` records that.
The `assert_ge!` sanity checks on memory styles also panic.  `ok` carries
the numbers of function, table, memory and global imports pushed. -/
inductive ResolveOutcome where
  | ok (functions tables memories globals : Nat)
  | linkError (module field : String)
  | panicked
deriving DecidableEq, Repr

/-- The loop of `resolve_imports`: resolve each declared import and match
the export against the expected type.  An unresolved import or any failed
type check reaches an error construction whose `None.unwrap()` argument
panics; a memory whose compatible type comes with a static bound or a
guard size below the imported expectation fails an assertion, which also
panics.  Successful matches push the import and continue. -/
def resolveImportsGo (resolver : Resolver) :
    List VMImport → Nat → Nat → Nat → Nat → ResolveOutcome
  | [], f, t, mm, g => .ok f t mm g
  | imp :: rest, f, t, mm, g =>
    match resolver imp.import_no imp.module imp.field with
    | none => .panicked
    | some resolved =>
      match resolved, imp.ty with
      | .Function exSig, .Function imSig =>
        if exSig = imSig then resolveImportsGo resolver rest (f + 1) t mm g
        else .panicked
      | .Table exTy, .Table imTy =>
        if is_compatible_table exTy imTy then
          if exTy.ty ≠ imTy.ty then .panicked
          else resolveImportsGo resolver rest f (t + 1) mm g
        else .panicked
      | .Memory exTy exStyle, .Memory imTy imStyle =>
        if is_compatible_memory exTy imTy then
          if (match exStyle, imStyle with
              | .Static exBound _, .Static imBound _ => decide (exBound < imBound)
              | _, _ => false) then .panicked
          else if exStyle.offset_guard_size < imStyle.offset_guard_size then .panicked
          else resolveImportsGo resolver rest f t (mm + 1) g
        else .panicked
      | .Global exTy, .Global imTy =>
        if exTy = imTy then resolveImportsGo resolver rest f t mm (g + 1)
        else .panicked
      | _, _ => .panicked

/-- `resolve_imports`: run the loop with empty import maps. -/
def resolve_imports (resolver : Resolver) (imports : List VMImport) : ResolveOutcome :=
  resolveImportsGo resolver imports 0 0 0 0

/-! ## Helper lemmas -/

theorem toLE64_length (n : Nat) : (toLE64 n).length = 8 := by
  simp [toLE64]

theorem fromLE64_toLE64 (n : Nat) (h : n < 2 ^ 64) : fromLE64 (toLE64 n) = n := by
  simp only [toLE64, List.range_succ, List.range_zero, List.map_append, List.map_cons,
    List.map_nil, List.nil_append, List.cons_append, fromLE64, List.foldr_cons,
    List.foldr_nil]
  omega

theorem MAGIC_HEADER_length : MAGIC_HEADER.length = 22 := by decide

/-! ## C8: the gas-metering configuration check -/

/-- C8.  If the instance configuration has an opcode cost above i32::MAX,
`Instance::new_with_config` fails with `IncorrectGasMeteringConfig` no
matter what the rest of instantiation would have produced (so before any
instance is created); with an opcode cost of at most i32::MAX the check
passes and the result is that of the rest of instantiation. -/
theorem new_with_config_gas_check :
    (∀ (α : Type) (cost : Nat) (rest : Except InstantiationError α),
        cost > i32MAX →
        Instance.new_with_config cost rest =
          .error (.HostEnvInitialization .IncorrectGasMeteringConfig)) ∧
    (∀ (α : Type) (cost : Nat) (rest : Except InstantiationError α),
        cost ≤ i32MAX → Instance.new_with_config cost rest = rest) := by
  constructor
  · intro α cost rest h
    simp [Instance.new_with_config, h]
  · intro α cost rest h
    simp [Instance.new_with_config, Nat.not_lt.mpr h]

/-- Witness for C8 at concrete inputs: cost 2147483648 fails with the
gas-metering error, cost 2147483647 passes the check. -/
theorem new_with_config_gas_check_witness :
    Instance.new_with_config (α := Unit) 2147483648 (.ok ()) =
      .error (.HostEnvInitialization .IncorrectGasMeteringConfig) ∧
    Instance.new_with_config (α := Unit) 2147483647 (.ok ()) = .ok () :=
  ⟨new_with_config_gas_check.1 Unit 2147483648 (.ok ()) (by decide),
   new_with_config_gas_check.2 Unit 2147483647 (.ok ()) (by decide)⟩

/-! ## C9: function index space conversions -/

/-- C9.  `local_func_index` returns `None` exactly on indices below
the import count, which is exactly when `is_imported_function` holds; on every
non-imported function index the round trip through `func_index` is the
identity, and symmetrically `local_func_index` inverts `func_index` on
every local function index. -/
theorem local_func_index_roundtrip :
    (∀ n f, ModuleInfo.local_func_index n f = none ↔ f < n) ∧
    (∀ n f, ModuleInfo.local_func_index n f = none ↔
        ModuleInfo.is_imported_function n f = true) ∧
    (∀ n f, n ≤ f →
        (ModuleInfo.local_func_index n f).map (ModuleInfo.func_index n) = some f) ∧
    (∀ n l, ModuleInfo.local_func_index n (ModuleInfo.func_index n l) = some l) := by
  refine ⟨fun n f => ?_, fun n f => ?_, fun n f h => ?_, fun n l => ?_⟩
  · unfold ModuleInfo.local_func_index
    split <;> simp_all
  · unfold ModuleInfo.local_func_index ModuleInfo.is_imported_function
    split <;> simp_all
  · unfold ModuleInfo.local_func_index ModuleInfo.func_index
    split
    · omega
    · simp only [Option.map_some']
      congr 1
      omega
  · unfold ModuleInfo.local_func_index ModuleInfo.func_index
    split
    · omega
    · congr 1
      omega

/-- Witness for C9 at concrete inputs: one imported function, function
index 3. -/
theorem local_func_index_roundtrip_witness :
    (ModuleInfo.local_func_index 1 3).map (ModuleInfo.func_index 1) = some 3 :=
  local_func_index_roundtrip.2.2.1 1 3 (by decide)

/-! ## C2, C3: the serialized executable format -/

/-- C2.  `verify_serialized` (and hence `deserialize`) rejects every
buffer produced by `serialize`: the rkyv payload is written through a
cursor positioned at the start of the output vector, so it overwrites the
magic header, and the verifier fails its very first check.  The
hypotheses only state that the payload is at least as long as the header
(true of every archived `UniversalExecutable`) and does not itself start
with the magic bytes. -/
theorem verify_serialized_rejects_serialize_output
    (payload : List Nat) (rootPos : Nat)
    (hlen : 22 ≤ payload.length)
    (hmagic : payload.take 22 ≠ MAGIC_HEADER) :
    UniversalExecutableRef.verify_serialized
        (UniversalExecutable.serialize payload rootPos) =
      .error "the provided bytes are not wasmer-universal" := by
  have hdrop : MAGIC_HEADER.drop payload.length = [] :=
    List.drop_eq_nil_of_le (by rw [MAGIC_HEADER_length]; exact hlen)
  have hser : UniversalExecutable.serialize payload rootPos =
      payload ++ toLE64 rootPos := by
    rw [UniversalExecutable.serialize, hdrop, List.append_nil]
  have hpre : ¬ MAGIC_HEADER.isPrefixOf (payload ++ toLE64 rootPos) := by
    rw [List.isPrefixOf_iff_prefix]
    intro hp
    have htake := List.prefix_iff_eq_take.mp hp
    rw [MAGIC_HEADER_length] at htake
    rw [List.take_append_eq_append_take] at htake
    have : payload.take 22 = MAGIC_HEADER := by
      rw [htake]
      have : 22 - payload.length = 0 := by omega
      simp [this]
    exact hmagic this
  rw [hser, UniversalExecutableRef.verify_serialized, if_pos]
  simpa using hpre

/-- Witness for C2: a 22-byte all-zero rkyv payload with root position 22
is rejected by the verifier. -/
theorem verify_serialized_rejects_serialize_output_witness :
    UniversalExecutableRef.verify_serialized
        (UniversalExecutable.serialize (List.replicate 22 0) 22) =
      .error "the provided bytes are not wasmer-universal" :=
  verify_serialized_rejects_serialize_output (List.replicate 22 0) 22
    (by decide) (by decide)

/-- Even a buffer with the layout the serialize comment intends — magic
header, payload, trailing root position — is rejected by
`verify_serialized`, because its final sanity check is inverted: it
errors whenever the root position is below the buffer length, which holds
of every root position actually pointing into the buffer.  (Standalone
observation; not attached to a claim.) -/
theorem verify_serialized_rejects_intended_layout
    (payload : List Nat) (rootPos : Nat)
    (hroot : rootPos < 22 + payload.length + 8) (h64 : rootPos < 2 ^ 64) :
    UniversalExecutableRef.verify_serialized
        (MAGIC_HEADER ++ payload ++ toLE64 rootPos) =
      .error "the buffer is malformed" := by
  have hlen : (MAGIC_HEADER ++ payload ++ toLE64 rootPos).length =
      30 + payload.length := by
    simp only [List.length_append, toLE64_length, MAGIC_HEADER_length]
    omega
  have hdrop : (MAGIC_HEADER ++ payload ++ toLE64 rootPos).drop
      ((MAGIC_HEADER ++ payload ++ toLE64 rootPos).length - 8) = toLE64 rootPos := by
    rw [hlen, show 30 + payload.length - 8 = (MAGIC_HEADER ++ payload).length from by
      simp only [List.length_append, MAGIC_HEADER_length]; omega]
    exact List.drop_left _ _
  have hpre : MAGIC_HEADER.isPrefixOf (MAGIC_HEADER ++ payload ++ toLE64 rootPos) := by
    rw [List.isPrefixOf_iff_prefix, List.append_assoc]
    exact List.prefix_append _ _
  rw [UniversalExecutableRef.verify_serialized, if_neg (by simp [hpre]),
    if_neg (by rw [hlen, MAGIC_HEADER_length]; omega), if_pos]
  rw [hdrop, hlen, fromLE64_toLE64 rootPos h64]
  omega

/-- C3 counterexample.  The buffer serialized from a concrete 22-byte
rkyv payload with root position 22 does not have the layout the
specification claims (magic header, LEB128 payload length, payload,
trailing root offset into the payload): its first 22 bytes are not the
magic header. -/
theorem serialize_output_violates_spec_layout :
    ¬ specSerializedLayout (UniversalExecutable.serialize (List.replicate 22 0) 22) := by
  rintro ⟨lebBytes, payloadLen, payload, rootOff, heq, -, -, -⟩
  have h17 := congrArg (fun l => l[17]?) heq
  simp only [] at h17
  rw [show MAGIC_HEADER ++ lebBytes ++ payload ++ toLE64 rootOff =
      MAGIC_HEADER ++ (lebBytes ++ (payload ++ toLE64 rootOff)) from by simp,
    List.getElem?_append_left (show 17 < MAGIC_HEADER.length from by decide)] at h17
  exact absurd h17 (by decide)

/-- C3 as amended.  What a serialized executable buffer actually consists
of: the rkyv archival payload (which, being written through a cursor at
position 0, replaces the magic header whenever it is at least 22 bytes
long) followed by the trailing little-endian u64 root position; there is
no LEB128 length field.  Deserialization does reject any buffer that does
not start with the magic. -/
theorem serialize_actual_layout :
    (∀ data, ¬ MAGIC_HEADER.isPrefixOf data →
        UniversalExecutableRef.verify_serialized data =
          .error "the provided bytes are not wasmer-universal") ∧
    (∀ payload rootPos, 22 ≤ payload.length →
        UniversalExecutable.serialize payload rootPos = payload ++ toLE64 rootPos) := by
  constructor
  · intro data h
    rw [UniversalExecutableRef.verify_serialized, if_pos]
    simpa using h
  · intro payload rootPos h
    rw [UniversalExecutable.serialize,
      List.drop_eq_nil_of_le (by rw [MAGIC_HEADER_length]; exact h), List.append_nil]

/-- Witness for the amended C3 at concrete inputs. -/
theorem serialize_actual_layout_witness :
    UniversalExecutableRef.verify_serialized [1] =
      .error "the provided bytes are not wasmer-universal" ∧
    UniversalExecutable.serialize (List.replicate 22 7) 5 =
      List.replicate 22 7 ++ toLE64 5 :=
  ⟨serialize_actual_layout.1 [1] (by decide),
   serialize_actual_layout.2 (List.replicate 22 7) 5 (by decide)⟩

/-! ## C1, C6: import resolution -/

/-- C1 refutation.  When the resolver returns `None` for a declared
import, `resolve_imports` does not return
`LinkError::UnknownImport` naming the module and field: the error
construction evaluates a placeholder `None.unwrap()` first, so the loop
panics.  Instantiation therefore terminates by panic, not by the claimed
error return. -/
theorem resolve_imports_unknown_import_panics
    (imp : VMImport) (rest : List VMImport) (resolver : Resolver)
    (h : resolver imp.import_no imp.module imp.field = none) :
    resolve_imports resolver (imp :: rest) = .panicked := by
  simp [resolve_imports, resolveImportsGo, h]

/-- Witness for C1: a module importing env.f as a function, with the
resolver that always returns `None`. -/
theorem resolve_imports_unknown_import_panics_witness :
    resolve_imports (fun _ _ _ => none) [⟨0, "env", "f", .Function 0⟩] = .panicked :=
  resolve_imports_unknown_import_panics ⟨0, "env", "f", .Function 0⟩ []
    (fun _ _ _ => none) rfl

/-- C6.  The pure type check `is_compatible_memory` does hold exactly
under the specified conditions — imported minimum at most the exported
minimum, imported maximum absent or exported maximum present and at most
the imported one, shared flags equal.  But an incompatible memory import
does not make `resolve_imports` return `LinkError::IncompatibleType`:
the catch-all error construction evaluates a placeholder `None.unwrap()`
and panics (and the static-bound and guard-size conditions are
`assert_ge!` panics, not type checks), as the concrete
incompatible import in the second conjunct shows. -/
theorem is_compatible_memory_iff_and_mismatch_panics :
    (∀ ex im : MemoryType,
        is_compatible_memory ex im = true ↔
          (im.minimum ≤ ex.minimum ∧
            (im.maximum = none ∨
              ∃ exMax imMax, ex.maximum = some exMax ∧ im.maximum = some imMax ∧
                exMax ≤ imMax) ∧
            ex.shared = im.shared)) ∧
    resolve_imports (fun _ _ _ => some (.Memory ⟨1, none, false⟩ (.Dynamic 0)))
        [⟨0, "env", "m", .Memory ⟨2, none, false⟩ (.Dynamic 0)⟩] = .panicked := by
  constructor
  · intro ex im
    obtain ⟨exmin, exmax, exsh⟩ := ex
    obtain ⟨immin, immax, imsh⟩ := im
    cases exmax <;> cases immax <;> cases exsh <;> cases imsh <;>
      simp [is_compatible_memory]
  · rfl

/-- Witness for C6 at concrete memory types: a compatible pair and an
incompatible pair, decided through the characterization. -/
theorem is_compatible_memory_iff_and_mismatch_panics_witness :
    is_compatible_memory ⟨2, some 5, false⟩ ⟨1, some 6, false⟩ = true ∧
    ¬ is_compatible_memory ⟨1, none, false⟩ ⟨2, none, false⟩ = true :=
  ⟨(is_compatible_memory_iff_and_mismatch_panics.1 ⟨2, some 5, false⟩
        ⟨1, some 6, false⟩).mpr
      ⟨by decide, Or.inr ⟨5, 6, rfl, rfl, by decide⟩, rfl⟩,
   fun h =>
    by
      rcases (is_compatible_memory_iff_and_mismatch_panics.1 ⟨1, none, false⟩
          ⟨2, none, false⟩).mp h with ⟨h1, -, -⟩
      exact absurd h1 (by decide)⟩

/-! ## C4: signature registry -/

theorem signature2index_getElem {l : List FunctionType} {sig : FunctionType} {i : Nat}
    (h : SignatureRegistry.signature2index l sig = some i) : l[i]? = some sig := by
  induction l generalizing i with
  | nil => simp [SignatureRegistry.signature2index] at h
  | cons s rest ih =>
    rw [SignatureRegistry.signature2index] at h
    by_cases hs : s = sig
    · simp only [if_pos hs] at h
      cases h
      simpa using hs
    · simp only [if_neg hs, Option.map_eq_some'] at h
      obtain ⟨j, hj, rfl⟩ := h
      simpa using ih hj

theorem signature2index_eq_none {l : List FunctionType} {sig : FunctionType} :
    SignatureRegistry.signature2index l sig = none ↔ sig ∉ l := by
  induction l with
  | nil => simp [SignatureRegistry.signature2index]
  | cons s rest ih =>
    rw [SignatureRegistry.signature2index]
    by_cases hs : s = sig
    · simp [hs]
    · simp [hs, ih, Ne.symm hs]

theorem getElem_signature2index {l : List FunctionType} {sig : FunctionType} {i : Nat}
    (hnd : l.Nodup) (h : l[i]? = some sig) :
    SignatureRegistry.signature2index l sig = some i := by
  induction l generalizing i with
  | nil => simp at h
  | cons s rest ih =>
    obtain ⟨hs, hrest⟩ := List.nodup_cons.mp hnd
    match i with
    | 0 =>
      simp only [List.getElem?_cons_zero, Option.some.injEq] at h
      simp [SignatureRegistry.signature2index, h]
    | j + 1 =>
      simp only [List.getElem?_cons_succ] at h
      obtain ⟨hlt, heq⟩ := List.getElem?_eq_some.mp h
      have hmem : sig ∈ rest := heq ▸ rest.getElem_mem hlt
      have hne : s ≠ sig := fun he => hs (he ▸ hmem)
      simp [SignatureRegistry.signature2index, hne, ih hrest h]

/-- What one `register` call guarantees on a duplicate-free registry:
the registry stays duplicate-free, the returned index holds the
registered signature, the hash-map view maps the signature to exactly
that index, and every previously registered signature keeps its index. -/
theorem register_spec (m : List FunctionType) (t : FunctionType) (hm : m.Nodup)
    (i : Nat) (r2 : SignatureRegistry)
    (hreg : (SignatureRegistry.mk m).register t = (i, r2)) :
    r2.index2signature.Nodup ∧
    r2.index2signature[i]? = some t ∧
    SignatureRegistry.signature2index r2.index2signature t = some i ∧
    ∀ (j : Nat) (x : FunctionType), m[j]? = some x → r2.index2signature[j]? = some x := by
  rw [SignatureRegistry.register] at hreg
  cases hidx : SignatureRegistry.signature2index m t with
  | none =>
    rw [hidx] at hreg
    cases hreg
    have hnotmem : t ∉ m := signature2index_eq_none.mp hidx
    have hnd2 : (m ++ [t]).Nodup := by
      rw [List.nodup_append]
      exact ⟨hm, List.nodup_singleton t, by simpa using hnotmem⟩
    have hget : (m ++ [t])[m.length]? = some t := by
      rw [List.getElem?_append_right (le_refl _)]
      simp
    refine ⟨hnd2, hget, getElem_signature2index hnd2 hget, ?_⟩
    intro j x hj
    have : j < m.length := (List.getElem?_eq_some.mp hj).1
    rw [List.getElem?_append_left this]
    exact hj
  | some k =>
    rw [hidx] at hreg
    cases hreg
    have hget := signature2index_getElem hidx
    exact ⟨hm, hget, hidx, fun j x hj => hj⟩

/-- C4.  In a registry whose registered signatures are pairwise distinct
(the invariant `register` maintains), registering two types in sequence
yields equal indices exactly when the types are equal, and `lookup` at an
index returned by `register` gives back exactly the registered type, also
after the later registration. -/
theorem register_injective_idempotent_lookup
    (r : SignatureRegistry) (t₁ t₂ : FunctionType)
    (hnd : r.index2signature.Nodup) :
    ((r.register t₁).1 = ((r.register t₁).2.register t₂).1 ↔ t₁ = t₂) ∧
    (r.register t₁).2.lookup (r.register t₁).1 = some t₁ ∧
    ((r.register t₁).2.register t₂).2.lookup ((r.register t₁).2.register t₂).1 =
      some t₂ ∧
    ((r.register t₁).2.register t₂).2.lookup (r.register t₁).1 = some t₁ := by
  obtain ⟨l⟩ := r
  obtain ⟨hnd1, hget1, hidx1, -⟩ :=
    register_spec l t₁ hnd ((SignatureRegistry.mk l).register t₁).1
      ((SignatureRegistry.mk l).register t₁).2 rfl
  obtain ⟨hnd2, hget2, hidx2, hkeep2⟩ :=
    register_spec ((SignatureRegistry.mk l).register t₁).2.index2signature t₂ hnd1
      (((SignatureRegistry.mk l).register t₁).2.register t₂).1
      (((SignatureRegistry.mk l).register t₁).2.register t₂).2 rfl
  have hkeep := hkeep2 _ _ hget1
  refine ⟨⟨fun heq => ?_, fun heq => ?_⟩, hget1, hget2, hkeep⟩
  · rw [heq, hget2] at hkeep
    exact (Option.some_injective _ hkeep).symm
  · subst heq
    have h2 := getElem_signature2index hnd2 hkeep
    rw [hidx2] at h2
    exact Option.some_injective _ h2.symm
  
/-- Witness for C4: registering a concrete type in the empty registry and
looking its index up returns the type. -/
theorem register_injective_idempotent_lookup_witness :
    ((SignatureRegistry.mk []).register ⟨[.I32], []⟩).2.lookup
        ((SignatureRegistry.mk []).register ⟨[.I32], []⟩).1 = some ⟨[.I32], []⟩ :=
  (register_injective_idempotent_lookup (SignatureRegistry.mk [])
    ⟨[.I32], []⟩ ⟨[], []⟩ (by simp)).2.1

/-! ## C10: partial-sum map -/

theorem getElem?_isSome_iff {α : Type} (l : List α) (i : Nat) :
    l[i]?.isSome = true ↔ i < l.length := by
  rw [Option.isSome_iff_exists]
  constructor
  · rintro ⟨a, ha⟩
    exact (List.getElem?_eq_some.mp ha).1
  · intro h
    exact ⟨l[i], List.getElem?_eq_some.mpr ⟨h, rfl⟩⟩

theorem chain_lt_le_getLast : ∀ (l : List Nat), l.Chain' (· < ·) →
    ∀ last, l.getLast? = some last → ∀ k ∈ l, k ≤ last := by
  intro l
  induction l with
  | nil =>
    intro _ last hl
    simp at hl
  | cons a rest ih =>
    intro hc last hl k hk
    cases rest with
    | nil =>
      simp at hl hk
      omega
    | cons b rest2 =>
      rw [List.chain'_cons] at hc
      rw [List.getLast?_cons_cons] at hl
      rcases List.mem_cons.mp hk with rfl | hk2
      · have hb : b ≤ last := ih hc.2 last hl b (List.mem_cons_self b rest2)
        omega
      · exact ih hc.2 last hl k hk2

/-- A successful `push` with a positive count preserves the
representation invariant (standalone: shows the invariant hypothesis of
the main theorem holds of every reachable map). -/
theorem push_preserves_Inv {V : Type} (m : PartialSumMap V) (count : Nat) (v : V)
    (hInv : m.Inv) : (m.push count v).2.Inv := by
  obtain ⟨hchain, hlen⟩ := hInv
  rw [PartialSumMap.push]
  by_cases hc : count ≠ 0
  · rw [if_pos hc]
    cases hmax : m.max_index with
    | none =>
      have hkeys : m.keys = [] := by
        cases hk : m.keys with
        | nil => rfl
        | cons a rest =>
          rw [PartialSumMap.max_index, hk] at hmax
          simp [List.getLast?] at hmax
      constructor <;> simp [PartialSumMap.Inv, hkeys, ← hlen]
    | some k =>
      simp only []
      unfold PartialSumMap.step
      by_cases hov : k + count ≤ u32MAX
      · rw [if_pos hov]
        refine ⟨?_, by simp [← hlen]⟩
        rw [List.chain'_append]
        refine ⟨hchain, List.chain'_singleton _, ?_⟩
        intro x hx y hy
        rw [PartialSumMap.max_index] at hmax
        rw [hmax] at hx
        simp at hx hy
        omega
      · rw [if_neg hov]
        exact ⟨hchain, hlen⟩
  · rw [if_neg hc]
    exact ⟨hchain, hlen⟩

/-- C10.  On any map satisfying the representation invariant: a push of
count 0 succeeds and leaves the map unchanged; a push whose key total
would exceed the u32 range fails with `Overflow` and leaves the map
unchanged (so every subsequent `find` and `max_index` agree with the
state before the failed push); a successful positive push makes the new
`max_index` the previous total plus count minus one; and `find` returns
a value exactly on the indices up to `max_index` of a non-empty map. -/
theorem partial_sum_map_push_find {V : Type} (m : PartialSumMap V) (hInv : m.Inv) :
    (∀ v : V, m.push 0 v = (.ok (), m)) ∧
    (∀ (count : Nat) (v : V) (k : Nat), count ≠ 0 → m.max_index = some k →
        u32MAX < k + count → m.push count v = (.error .Overflow, m)) ∧
    (∀ (count : Nat) (v : V), count ≠ 0 →
        (∀ k, m.max_index = some k → k + count ≤ u32MAX) →
        (m.push count v).1 = .ok () ∧
        (m.push count v).2.max_index =
          some ((match m.max_index with | none => 0 | some k => k + 1) + count - 1)) ∧
    (∀ i : Nat, (m.find i).isSome = true ↔ ∃ k, m.max_index = some k ∧ i ≤ k) := by
  obtain ⟨hchain, hlen⟩ := hInv
  refine ⟨fun v => by simp [PartialSumMap.push], ?_, ?_, ?_⟩
  · intro count v k hc hmax hov
    rw [PartialSumMap.push, if_pos hc, hmax]
    simp only []
    unfold PartialSumMap.step
    rw [if_neg (show ¬ k + count ≤ u32MAX by omega)]
  · intro count v hc hnov
    rw [PartialSumMap.push, if_pos hc]
    cases hmax : m.max_index with
    | none =>
      refine ⟨rfl, ?_⟩
      simp [PartialSumMap.max_index, PartialSumMap.first_index]
    | some k =>
      simp only []
      unfold PartialSumMap.step
      rw [if_pos (hnov k hmax)]
      refine ⟨rfl, ?_⟩
      simp [PartialSumMap.max_index]
  · intro i
    rw [PartialSumMap.find, getElem?_isSome_iff, ← hlen]
    constructor
    · intro hlt
      have hne : ¬ ∀ k ∈ m.keys, decide (k < i) = true := by
        intro hall
        rw [← List.countP_eq_length] at hall
        omega
      push_neg at hne
      obtain ⟨k, hkmem, hki⟩ := hne
      simp at hki
      cases hk : m.keys.getLast? with
      | none =>
        rw [List.getLast?_eq_none_iff] at hk
        rw [hk] at hkmem
        simp at hkmem
      | some last =>
        exact ⟨last, hk, le_trans hki (chain_lt_le_getLast m.keys hchain last hk k hkmem)⟩
    · rintro ⟨k, hmax, hik⟩
      rw [PartialSumMap.max_index] at hmax
      have hkmem : k ∈ m.keys := List.mem_of_mem_getLast? hmax
      have hcount : m.keys.countP (fun x => decide (x < i)) ≠ m.keys.length := by
        intro heq
        have := List.countP_eq_length.mp heq k hkmem
        simp at this
        omega
      have hle := m.keys.countP_le_length (fun x => decide (x < i))
      omega

/-- Witness for C10 on a concrete one-entry map. -/
theorem partial_sum_map_push_find_witness :
    (PartialSumMap.mk [5] [42] : PartialSumMap Nat).push 0 99 =
      (.ok (), PartialSumMap.mk [5] [42]) ∧
    ((PartialSumMap.mk [5] [42] : PartialSumMap Nat).find 3).isSome = true :=
  ⟨(partial_sum_map_push_find (PartialSumMap.mk [5] [42])
      ⟨by simp, by simp⟩).1 99,
   ((partial_sum_map_push_find (PartialSumMap.mk [5] [42])
      ⟨by simp, by simp⟩).2.2.2 3).mpr ⟨5, rfl, by omega⟩⟩

/-! ## C7: machine-state acquire and release -/

theorem pick_gpr_not_mem {m : Machine} {r : GPR} (h : m.pick_gpr = some r) :
    r ∉ m.used_gprs := by
  simpa using List.find?_some h

theorem pick_xmm_not_mem {m : Machine} {x : XMM} (h : m.pick_xmm = some x) :
    x ∉ m.used_xmms := by
  simpa using List.find?_some h

theorem acquireStep_stack_le (m : Machine) (ty : WpType) :
    m.stack_offset ≤ (m.acquireStep ty).2.stack_offset := by
  unfold Machine.acquireStep
  cases ty <;> (try cases m.pick_gpr) <;> (try cases m.pick_xmm) <;> simp

theorem acquireList_stack_mono (tys : List WpType) : ∀ m : Machine,
    m.stack_offset ≤ (m.acquireList tys).2.stack_offset := by
  induction tys with
  | nil => intro m; exact le_refl _
  | cons ty rest ih =>
    intro m
    simp only [Machine.acquireList]
    exact le_trans (acquireStep_stack_le m ty) (ih (m.acquireStep ty).2)

theorem releaseList_append (m : Machine) (d : Nat) (xs ys : List Location) :
    m.releaseList d (xs ++ ys) =
      match m.releaseList d xs with
      | some md => md.1.releaseList md.2 ys
      | none => none := by
  induction xs generalizing m d with
  | nil => rfl
  | cons l rest ih =>
    simp only [List.cons_append, Machine.releaseList]
    cases m.releaseOne d l with
    | none => rfl
    | some md => exact ih md.1 md.2

theorem releaseList_singleton (m : Machine) (d : Nat) (loc : Location) :
    m.releaseList d [loc] = m.releaseOne d loc := by
  unfold Machine.releaseList
  cases m.releaseOne d loc with
  | none => rfl
  | some md => rfl

theorem releaseOne_fresh_gpr (m : Machine) (r : GPR) (d : Nat) (h : r ∉ m.used_gprs) :
    (Machine.mk (insert r m.used_gprs) m.used_xmms m.stack_offset).releaseOne d
      (.GPR r) = some (m, d) := by
  unfold Machine.releaseOne
  simp only []
  rw [if_pos (Finset.mem_insert_self r _)]
  rw [Finset.erase_insert h]

theorem releaseOne_fresh_xmm (m : Machine) (x : XMM) (d : Nat) (h : x ∉ m.used_xmms) :
    (Machine.mk m.used_gprs (insert x m.used_xmms) m.stack_offset).releaseOne d
      (.XMM x) = some (m, d) := by
  unfold Machine.releaseOne
  simp only []
  rw [if_pos (Finset.mem_insert_self x _)]
  rw [Finset.erase_insert h]

theorem releaseOne_spill (m : Machine) (d : Nat) :
    (Machine.mk m.used_gprs m.used_xmms (m.stack_offset + 8)).releaseOne d
      (.Memory .RBP (-((m.stack_offset + 8 : Nat) : Int))) = some (m, d + 8) := by
  unfold Machine.releaseOne
  simp only [if_true]
  rw [if_neg (by omega)]
  rw [if_neg (by omega)]
  have h8 : m.stack_offset + 8 - 8 = m.stack_offset := by omega
  simp only [h8]

/-- Releasing the locations produced by one acquisition loop, in reverse
order, succeeds and restores the exact machine state, accumulating a
stack delta equal to the growth the acquisition caused. -/
theorem acquireList_release (tys : List WpType) : ∀ (m : Machine) (d : Nat),
    (m.acquireList tys).2.releaseList d ((m.acquireList tys).1).reverse =
      some (m, d + ((m.acquireList tys).2.stack_offset - m.stack_offset)) := by
  induction tys with
  | nil =>
    intro m d
    simp [Machine.acquireList, Machine.releaseList]
  | cons ty rest ih =>
    intro m d
    simp only [Machine.acquireList, List.reverse_cons]
    rw [releaseList_append, ih (m.acquireStep ty).2 d]
    simp only []
    cases ty <;> simp only [Machine.acquireStep]
    case F32 | F64 =>
      cases hx : m.pick_xmm with
      | some x =>
        simp only []
        have hnot : x ∉ m.used_xmms := pick_xmm_not_mem hx
        rw [releaseList_singleton, releaseOne_fresh_xmm m x _ hnot]
      | none =>
        simp only []
        have h2 := acquireList_stack_mono rest
          (Machine.mk m.used_gprs m.used_xmms (m.stack_offset + 8))
        rw [releaseList_singleton, releaseOne_spill]
        simp only [Option.some.injEq, Prod.mk.injEq, true_and]
        simp only [] at h2 ⊢
        omega
    all_goals
      cases hr : m.pick_gpr with
      | some r =>
        simp only []
        have hnot : r ∉ m.used_gprs := pick_gpr_not_mem hr
        rw [releaseList_singleton, releaseOne_fresh_gpr m r _ hnot]
      | none =>
        simp only []
        have h2 := acquireList_stack_mono rest
          (Machine.mk m.used_gprs m.used_xmms (m.stack_offset + 8))
        rw [releaseList_singleton, releaseOne_spill]
        simp only [Option.some.injEq, Prod.mk.injEq, true_and]
        simp only [] at h2 ⊢
        omega

/-- C7.  For every machine state and every list of wasm value types,
releasing the locations returned by `acquire_locations` restores the
tracked stack offset and the used general-purpose and SIMD register sets
exactly — the resulting state is the original machine — and the entire
stack pop is coalesced into at most one `add rsp`, emitted exactly when
the acquisition had spilled to the stack.  The `release_locations`
definition itself demands reverse acquisition order: a released stack
slot must be the tracked top of stack, and the locations are walked in
reverse. -/
theorem acquire_release_roundtrip (m : Machine) (tys : List WpType) (zeroed : Bool) :
    (m.acquire_locations tys zeroed).2.1.release_locations
        (m.acquire_locations tys zeroed).1 =
      some (m,
        if (m.acquire_locations tys zeroed).2.1.stack_offset = m.stack_offset
        then []
        else [Instr.addRspImm
          ((m.acquire_locations tys zeroed).2.1.stack_offset - m.stack_offset)]) := by
  have hmono := acquireList_stack_mono tys m
  unfold Machine.acquire_locations Machine.release_locations
  simp only []
  rw [acquireList_release tys m 0]
  simp only [Option.map_some', Nat.zero_add]
  congr 1
  split
  · next h =>
    rw [if_pos]
    omega
  · next h =>
    rw [if_neg]
    omega

/-! ## C5: deterministic compilation -/

theorem find?_first {α : Type} (p : α → Bool) (l : List α) (a : α)
    (h : l.find? p = some a) :
    p a = true ∧ ∃ i : Nat, l[i]? = some a ∧
      ∀ (j : Nat), j < i → ∀ b, l[j]? = some b → p b = false := by
  induction l generalizing a with
  | nil => simp at h
  | cons x rest ih =>
    by_cases hx : p x = true
    · rw [List.find?_cons_of_pos _ hx] at h
      cases h
      exact ⟨hx, 0, by simp, by omega⟩
    · rw [List.find?_cons_of_neg _ (by simpa using hx)] at h
      obtain ⟨hp, i, hi, hj⟩ := ih a h
      refine ⟨hp, i + 1, by simpa using hi, ?_⟩
      intro j hji b hb
      match j with
      | 0 =>
        simp only [List.getElem?_cons_zero, Option.some.injEq] at hb
        subst hb
        simpa using hx
      | k + 1 =>
        simp only [List.getElem?_cons_succ] at hb
        exact hj k (by omega) b hb

theorem mapM_except_ok {α β : Type} (f : α → Except CompileError β) :
    ∀ (inputs : List α) (out : List β), inputs.mapM f = .ok out →
      out.length = inputs.length ∧
      ∀ (i : Nat) (h₁ : i < inputs.length) (h₂ : i < out.length),
        f (inputs.get ⟨i, h₁⟩) = .ok (out.get ⟨i, h₂⟩) := by
  intro inputs
  induction inputs with
  | nil =>
    intro out h
    simp only [List.mapM_nil, pure, Except.pure] at h
    cases h
    exact ⟨rfl, fun i h₁ => by simp at h₁⟩
  | cons a rest ih =>
    intro out h
    rw [List.mapM_cons] at h
    cases hfa : f a with
    | error e =>
      rw [hfa] at h
      simp [Bind.bind, Except.bind] at h
    | ok b =>
      rw [hfa] at h
      cases hrest : rest.mapM f with
      | error e =>
        rw [hrest] at h
        simp [Bind.bind, Except.bind, pure, Except.pure] at h
      | ok bs =>
        rw [hrest] at h
        simp only [Bind.bind, Except.bind, pure, Except.pure, Except.ok.injEq] at h
        subst h
        obtain ⟨hlen, hget⟩ := ih bs hrest
        refine ⟨by simpa using hlen, ?_⟩
        intro i h₁ h₂
        match i with
        | 0 => simpa using hfa
        | k + 1 =>
          simp only [List.get_cons_succ]
          exact hget k (by simpa using h₁) (by simpa using h₂)

/-- C5.  The pieces of compile-determinism that live in the sources under
verification: `pick_gpr` is a function of the used-register set alone and
always selects the first free register of the fixed canonical order RSI,
RDI, R8, R9, R10, R11 (returning none exactly when all six are used), and
the per-function compilation fan-in collects the per-function results in
input order, position by position.  With the per-function code generator
a fixed function of its input (it lives outside these sources), two runs
of `compile_module` on the same input therefore produce identical
executables. -/
theorem pick_gpr_canonical_and_collect_in_order :
    (∀ m₁ m₂ : Machine, m₁.used_gprs = m₂.used_gprs → m₁.pick_gpr = m₂.pick_gpr) ∧
    (∀ (m : Machine) (r : GPR), m.pick_gpr = some r →
        r ∉ m.used_gprs ∧
        ∃ i : Nat, Machine.pickableGprs[i]? = some r ∧
          ∀ (j : Nat), j < i → ∀ s, Machine.pickableGprs[j]? = some s →
            s ∈ m.used_gprs) ∧
    (∀ m : Machine, m.pick_gpr = none → ∀ r ∈ Machine.pickableGprs, r ∈ m.used_gprs) ∧
    (∀ {α β : Type} (f : α → Except CompileError β) (inputs : List α) (out : List β),
        SinglepassCompiler.compileFunctions f inputs = .ok out →
        out.length = inputs.length ∧
        ∀ (i : Nat) (h₁ : i < inputs.length) (h₂ : i < out.length),
          f (inputs.get ⟨i, h₁⟩) = .ok (out.get ⟨i, h₂⟩)) := by
  refine ⟨?_, ?_, ?_, ?_⟩
  · intro m₁ m₂ h
    unfold Machine.pick_gpr
    rw [h]
  · intro m r h
    obtain ⟨hp, i, hi, hj⟩ := find?_first _ _ _ h
    refine ⟨by simpa using hp, i, hi, ?_⟩
    intro j hji s hs
    have := hj j hji s hs
    simpa using this
  · intro m h r hr
    have := List.find?_eq_none.mp h r hr
    simpa using this
  · intro α β f inputs out h
    exact mapM_except_ok f inputs out h

/-- Witness for C5: on a machine with no used registers the canonical
pick is applied, and a concrete two-element fan-in is collected in
order. -/
theorem pick_gpr_canonical_and_collect_in_order_witness :
    GPR.RSI ∉ (Machine.mk ∅ ∅ 0).used_gprs ∧
    ([2, 3] : List Nat).length = ([1, 2] : List Nat).length :=
  ⟨(pick_gpr_canonical_and_collect_in_order.2.1 (Machine.mk ∅ ∅ 0) .RSI
      (by decide)).1,
   (pick_gpr_canonical_and_collect_in_order.2.2.2
      (fun n : Nat => .ok (n + 1)) [1, 2] [2, 3] rfl).1⟩
